import Mathlib

/-!
Shallow embedding of the multi-project key-value configuration store in
`configure_platform.py`.

A project is stored as a pandas DataFrame with columns `key` and `value`;
we embed it as an ordered list of string pairs.  The whole store is the
dict mapping project names to DataFrames, embedded as an ordered
association list.  The API handlers rebuild a project through a Python
dict (`set_index` + `to_dict`), which collapses duplicate keys keeping
the value of the last occurrence at the position of the first; the dict
operations are embedded by `alInsert` / `alErase` / `alLookup` below.
-/

namespace ConfPlat

abbrev Entry := String × String
abbrev Project := List Entry
abbrev Store := List (String × Project)

/-- Key column of an association list: the DataFrame `key` column, or the
keys of a Python dict taken in insertion order. -/
def keys {α : Type} (d : List (String × α)) : List String := d.map Prod.fst

/-- Python dict lookup `d.get(k)`: first binding wins (on genuine dicts the
binding is unique). -/
def alLookup {α : Type} : List (String × α) → String → Option α
  | [], _ => none
  | e :: d, k => if e.1 = k then some e.2 else alLookup d k

/-- Python dict assignment `d[k] = v`: if the key is present the value is
replaced in place, otherwise the binding is appended at the end. -/
def alInsert {α : Type} (d : List (String × α)) (k : String) (v : α) : List (String × α) :=
  if k ∈ keys d then d.map (fun e => if e.1 = k then (k, v) else e) else d ++ [(k, v)]

/-- Removal of every binding of key `k`.  On duplicate-free dicts this is
Python `del d[k]` / `d.pop(k)`; on DataFrames it is the row filter used by
the delete handlers. -/
def alErase {α : Type} : List (String × α) → String → List (String × α)
  | [], _ => []
  | e :: d, k => if e.1 = k then alErase d k else e :: alErase d k

theorem keys_nil {α : Type} : keys ([] : List (String × α)) = [] := rfl

theorem keys_cons {α : Type} (e : String × α) (d : List (String × α)) :
    keys (e :: d) = e.1 :: keys d := rfl

theorem keys_append {α : Type} (d₁ d₂ : List (String × α)) :
    keys (d₁ ++ d₂) = keys d₁ ++ keys d₂ := List.map_append _ _ _

theorem keys_map_update {α : Type} (d : List (String × α)) (k : String) (v : α) :
    keys (d.map (fun e => if e.1 = k then (k, v) else e)) = keys d := by
  induction d with
  | nil => rfl
  | cons e d ih =>
    rw [List.map_cons, keys_cons, keys_cons, ih]
    by_cases h : e.1 = k
    · rw [if_pos h, h]
    · rw [if_neg h]

theorem mem_keys_alInsert {α : Type} (d : List (String × α)) (k k' : String) (v : α) :
    k' ∈ keys (alInsert d k v) ↔ k' ∈ keys d ∨ k' = k := by
  unfold alInsert
  by_cases h : k ∈ keys d
  · rw [if_pos h, keys_map_update]
    constructor
    · exact Or.inl
    · rintro (hm | rfl)
      · exact hm
      · exact h
  · rw [if_neg h, keys_append]
    simp [keys]

theorem nodup_keys_alInsert {α : Type} (d : List (String × α)) (k : String) (v : α)
    (h : (keys d).Nodup) : (keys (alInsert d k v)).Nodup := by
  unfold alInsert
  by_cases hm : k ∈ keys d
  · rw [if_pos hm, keys_map_update]
    exact h
  · rw [if_neg hm, keys_append]
    refine List.Nodup.append h (List.nodup_singleton k) ?_
    intro a ha hb
    simp only [keys, List.map_cons, List.map_nil, List.mem_singleton] at hb
    subst hb
    exact hm ha

theorem alLookup_eq_none {α : Type} (d : List (String × α)) (k : String)
    (h : k ∉ keys d) : alLookup d k = none := by
  induction d with
  | nil => rfl
  | cons e d ih =>
    rw [keys_cons, List.mem_cons] at h
    push_neg at h
    rw [alLookup, if_neg (fun he => h.1 he.symm)]
    exact ih h.2

theorem mem_keys_of_alLookup_eq_some {α : Type} {d : List (String × α)} {k : String} {v : α}
    (h : alLookup d k = some v) : k ∈ keys d := by
  by_contra hm
  rw [alLookup_eq_none d k hm] at h
  exact Option.noConfusion h

theorem alLookup_mem {α : Type} {d : List (String × α)} {k : String} {v : α}
    (h : alLookup d k = some v) : (k, v) ∈ d := by
  induction d with
  | nil => exact Option.noConfusion h
  | cons e d ih =>
    rw [alLookup] at h
    by_cases he : e.1 = k
    · rw [if_pos he] at h
      obtain rfl := Option.some.inj h
      rw [List.mem_cons]
      left
      rw [← he]
    · rw [if_neg he] at h
      exact List.mem_cons_of_mem _ (ih h)

theorem alLookup_append {α : Type} (d₁ d₂ : List (String × α)) (k : String) :
    alLookup (d₁ ++ d₂) k =
      match alLookup d₁ k with
      | some v => some v
      | none => alLookup d₂ k := by
  induction d₁ with
  | nil => rfl
  | cons e d ih =>
    rw [List.cons_append, alLookup, alLookup]
    by_cases he : e.1 = k
    · rw [if_pos he, if_pos he]
    · rw [if_neg he, if_neg he, ih]

theorem alLookup_append_of_not_mem {α : Type} (d₁ d₂ : List (String × α)) (k : String)
    (h : k ∉ keys d₁) : alLookup (d₁ ++ d₂) k = alLookup d₂ k := by
  rw [alLookup_append, alLookup_eq_none d₁ k h]

theorem alLookup_map_update_ne {α : Type} (d : List (String × α)) (k k' : String) (v : α)
    (hne : k' ≠ k) :
    alLookup (d.map (fun e => if e.1 = k then (k, v) else e)) k' = alLookup d k' := by
  induction d with
  | nil => rfl
  | cons e d ih =>
    rw [List.map_cons, alLookup, alLookup]
    by_cases he : e.1 = k
    · rw [if_pos he, if_neg (fun h : e.1 = k' => hne ((he.symm.trans h).symm))]
      have : ¬ ((k, v).1 = k') := fun h => hne h.symm
      rw [if_neg this]
      exact ih
    · rw [if_neg he]
      by_cases he' : e.1 = k'
      · rw [if_pos he', if_pos he']
      · rw [if_neg he', if_neg he', ih]

theorem alLookup_alInsert_self {α : Type} (d : List (String × α)) (k : String) (v : α) :
    alLookup (alInsert d k v) k = some v := by
  unfold alInsert
  by_cases hm : k ∈ keys d
  · rw [if_pos hm]
    induction d with
    | nil => simp [keys] at hm
    | cons e d ih =>
      by_cases he : e.1 = k
      · simp [alLookup, he]
      · rw [List.map_cons, if_neg he, alLookup, if_neg he]
        rw [keys_cons, List.mem_cons] at hm
        exact ih (hm.resolve_left (fun hk => he hk.symm))
  · rw [if_neg hm, alLookup_append_of_not_mem d _ k hm, alLookup, if_pos rfl]

theorem alLookup_alInsert_ne {α : Type} (d : List (String × α)) (k k' : String) (v : α)
    (hne : k' ≠ k) : alLookup (alInsert d k v) k' = alLookup d k' := by
  unfold alInsert
  by_cases hm : k ∈ keys d
  · rw [if_pos hm]
    exact alLookup_map_update_ne d k k' v hne
  · rw [if_neg hm, alLookup_append]
    cases h : alLookup d k' with
    | some w => rfl
    | none =>
      rw [alLookup, if_neg (fun h : k = k' => hne h.symm)]
      rfl

theorem mem_keys_alErase {α : Type} (d : List (String × α)) (k k' : String) :
    k' ∈ keys (alErase d k) ↔ k' ∈ keys d ∧ k' ≠ k := by
  induction d with
  | nil => simp [alErase, keys]
  | cons e d ih =>
    rw [alErase]
    by_cases he : e.1 = k
    · rw [if_pos he, ih, keys_cons, List.mem_cons]
      constructor
      · rintro ⟨hm, hne⟩
        exact ⟨Or.inr hm, hne⟩
      · rintro ⟨hm | hm, hne⟩
        · exact absurd (hm.trans he) hne
        · exact ⟨hm, hne⟩
    · rw [if_neg he, keys_cons, keys_cons, List.mem_cons, List.mem_cons, ih]
      constructor
      · rintro (rfl | ⟨hm, hne⟩)
        · exact ⟨Or.inl rfl, fun hk => he hk⟩
        · exact ⟨Or.inr hm, hne⟩
      · rintro ⟨hm | hm, hne⟩
        · exact Or.inl hm
        · exact Or.inr ⟨hm, hne⟩

theorem nodup_keys_alErase {α : Type} (d : List (String × α)) (k : String)
    (h : (keys d).Nodup) : (keys (alErase d k)).Nodup := by
  induction d with
  | nil => simpa [alErase] using h
  | cons e d ih =>
    rw [keys_cons, List.nodup_cons] at h
    rw [alErase]
    by_cases he : e.1 = k
    · rw [if_pos he]
      exact ih h.2
    · rw [if_neg he, keys_cons, List.nodup_cons]
      refine ⟨fun hm => h.1 ((mem_keys_alErase d k e.1).mp hm).1, ih h.2⟩

theorem alLookup_alErase_self {α : Type} (d : List (String × α)) (k : String) :
    alLookup (alErase d k) k = none := by
  apply alLookup_eq_none
  rw [mem_keys_alErase]
  rintro ⟨-, hne⟩
  exact hne rfl

theorem alLookup_alErase_ne {α : Type} (d : List (String × α)) (k k' : String)
    (hne : k' ≠ k) : alLookup (alErase d k) k' = alLookup d k' := by
  induction d with
  | nil => rfl
  | cons e d ih =>
    rw [alErase, alLookup]
    by_cases he : e.1 = k
    · rw [if_pos he, if_neg (fun h : e.1 = k' => hne ((he.symm.trans h).symm)), ih]
    · rw [if_neg he, alLookup]
      by_cases he' : e.1 = k'
      · rw [if_pos he', if_pos he']
      · rw [if_neg he', if_neg he', ih]

theorem alErase_eq_self_of_not_mem {α : Type} (d : List (String × α)) (k : String)
    (h : k ∉ keys d) : alErase d k = d := by
  induction d with
  | nil => rfl
  | cons e d ih =>
    rw [keys_cons, List.mem_cons] at h
    push_neg at h
    rw [alErase, if_neg (fun he => h.1 he.symm), ih h.2]

/-- Value of the last occurrence of key `k` among the rows of `p`. -/
def lastLookup : Project → String → Option String
  | [], _ => none
  | e :: p, k =>
    match lastLookup p k with
    | some v => some v
    | none => if e.1 = k then some e.2 else none

/-- Folding Python dict assignments over the rows of `p` starting from the
dict `d`: the loop performed by building a dict from a sequence of pairs,
and also the batch-update loop `for key, value in updates: config[key] = value`. -/
def dictOf (d : Project) (p : Project) : Project :=
  p.foldl (fun acc e => alInsert acc e.1 e.2) d

/-- The dict `current_project.set_index(key).to_dict()[value]`: one binding
per key, value of the last occurrence, keys in first-occurrence order. -/
def toConfig (p : Project) : Project := dictOf [] p

theorem dictOf_cons (d : Project) (e : Entry) (p : Project) :
    dictOf d (e :: p) = dictOf (alInsert d e.1 e.2) p := rfl

theorem lastLookup_eq_none (p : Project) (k : String) (h : k ∉ keys p) :
    lastLookup p k = none := by
  induction p with
  | nil => rfl
  | cons e p ih =>
    rw [keys_cons, List.mem_cons] at h
    push_neg at h
    simp only [lastLookup, ih h.2]
    rw [if_neg (fun he => h.1 he.symm)]

theorem isSome_lastLookup_of_mem (p : Project) (k : String) (h : k ∈ keys p) :
    (lastLookup p k).isSome := by
  induction p with
  | nil => simp [keys] at h
  | cons e p ih =>
    rw [lastLookup]
    cases hl : lastLookup p k with
    | some v => simp
    | none =>
      rw [keys_cons, List.mem_cons] at h
      cases h with
      | inl h => simp [if_pos h.symm]
      | inr h =>
        have hs := ih h
        rw [hl] at hs
        exact absurd hs (by simp)

theorem alLookup_dictOf_of_not_mem (d p : Project) (k : String) :
    k ∉ keys p → alLookup (dictOf d p) k = alLookup d k := by
  induction p generalizing d with
  | nil => intro _; rfl
  | cons e p ih =>
    intro h
    rw [keys_cons, List.mem_cons] at h
    push_neg at h
    rw [dictOf_cons, ih (alInsert d e.1 e.2) h.2, alLookup_alInsert_ne d e.1 k e.2 h.1]

theorem alLookup_dictOf_of_mem (d p : Project) (k : String) :
    k ∈ keys p → alLookup (dictOf d p) k = lastLookup p k := by
  induction p generalizing d with
  | nil => intro h; simp [keys] at h
  | cons e p ih =>
    intro h
    by_cases hm : k ∈ keys p
    · rw [dictOf_cons, ih _ hm, lastLookup]
      cases hl : lastLookup p k with
      | some v => rfl
      | none =>
        have hs := isSome_lastLookup_of_mem p k hm
        rw [hl] at hs
        exact absurd hs (by simp)
    · have he : k = e.1 := by
        rw [keys_cons, List.mem_cons] at h
        exact h.resolve_right hm
      subst he
      rw [dictOf_cons, alLookup_dictOf_of_not_mem _ p _ hm, alLookup_alInsert_self,
        lastLookup, lastLookup_eq_none p _ hm]
      simp

theorem mem_keys_dictOf (d p : Project) (k : String) :
    k ∈ keys (dictOf d p) ↔ k ∈ keys d ∨ k ∈ keys p := by
  induction p generalizing d with
  | nil => simp [dictOf, keys]
  | cons e p ih =>
    rw [dictOf_cons, ih, mem_keys_alInsert, keys_cons, List.mem_cons]
    tauto

theorem nodup_keys_dictOf (d p : Project) :
    (keys d).Nodup → (keys (dictOf d p)).Nodup := by
  induction p generalizing d with
  | nil => exact id
  | cons e p ih => exact fun h => ih _ (nodup_keys_alInsert d e.1 e.2 h)

theorem alLookup_toConfig (p : Project) (k : String) :
    alLookup (toConfig p) k = lastLookup p k := by
  by_cases hm : k ∈ keys p
  · exact alLookup_dictOf_of_mem [] p k hm
  · rw [toConfig, alLookup_dictOf_of_not_mem [] p k hm, lastLookup_eq_none p k hm]
    rfl

theorem mem_keys_toConfig (p : Project) (k : String) :
    k ∈ keys (toConfig p) ↔ k ∈ keys p := by
  rw [toConfig, mem_keys_dictOf]
  simp [keys]

theorem nodup_keys_toConfig (p : Project) : (keys (toConfig p)).Nodup :=
  nodup_keys_dictOf [] p List.nodup_nil

theorem dictOf_eq_append (d p : Project) :
    (keys (d ++ p)).Nodup → dictOf d p = d ++ p := by
  induction p generalizing d with
  | nil => intro _; simp [dictOf]
  | cons e p ih =>
    intro h
    have hnd : e.1 ∉ keys d := by
      rw [keys_append, keys_cons] at h
      obtain ⟨-, -, hdisj⟩ := List.nodup_append.mp h
      exact fun hm => hdisj hm (List.mem_cons_self _ _)
    have heq : alInsert d e.1 e.2 = d ++ [e] := by
      unfold alInsert
      rw [if_neg hnd]
    have h' : (keys ((d ++ [e]) ++ p)).Nodup := by
      rw [← List.append_cons]
      exact h
    rw [dictOf_cons, heq, ih (d ++ [e]) h', ← List.append_cons]

theorem toConfig_eq_self (p : Project) (h : (keys p).Nodup) : toConfig p = p := by
  have hd := dictOf_eq_append [] p (by simpa using h)
  simpa using hd

/-- Value component of the pydantic `ConfigResponse`, whose `value` field is
`Optional[Any]`: either `None`, a scalar string, or a pandas Series of the
values at a duplicated key. -/
inductive RespValue where
  | null : RespValue
  | str : String → RespValue
  | series : List String → RespValue
deriving DecidableEq

/-- pandas `df.set_index(key).loc[k, value]`: the scalar value when the key
selects exactly one row, the Series of all matching values otherwise. -/
def locValue (p : Project) (k : String) : RespValue :=
  match (p.filter (fun e => e.1 = k)).map Prod.snd with
  | [v] => RespValue.str v
  | vs => RespValue.series vs

theorem filter_key_eq_nil (p : Project) (k : String) (h : k ∉ keys p) :
    p.filter (fun e => e.1 = k) = [] := by
  induction p with
  | nil => rfl
  | cons e p ih =>
    rw [keys_cons, List.mem_cons] at h
    push_neg at h
    simp only [List.filter_cons, decide_eq_true_eq]
    rw [if_neg (fun he => h.1 he.symm), ih h.2]

theorem filter_map_eq_singleton (p : Project) (k v : String) :
    (keys p).Nodup → alLookup p k = some v →
    (p.filter (fun e => e.1 = k)).map Prod.snd = [v] := by
  induction p with
  | nil => exact fun _ hv => Option.noConfusion hv
  | cons e p ih =>
    intro hnd hv
    rw [keys_cons, List.nodup_cons] at hnd
    rw [alLookup] at hv
    simp only [List.filter_cons, decide_eq_true_eq]
    by_cases he : e.1 = k
    · rw [if_pos he] at hv
      obtain rfl := Option.some.inj hv
      rw [if_pos he, filter_key_eq_nil p k (fun hm => hnd.1 (by rw [he]; exact hm))]
      rfl
    · rw [if_neg he] at hv
      rw [if_neg he]
      exact ih hnd.2 hv

theorem locValue_of_nodup (p : Project) (k v : String)
    (hnd : (keys p).Nodup) (hv : alLookup p k = some v) :
    locValue p k = RespValue.str v := by
  unfold locValue
  rw [filter_map_eq_singleton p k v hnd hv]

/-- HTTP error raised by the API handlers, identified by raise site; every
one of these sites raises HTTP status 404. -/
inductive ApiError where
  | projectNotFound : String → ApiError
  | keyNotFound : String → ApiError
  | emptyProjectSingle : String → ApiError
  | emptyProjectBatch : ApiError
deriving DecidableEq

/-- HTTP status code attached to each raise site modelled above. -/
def ApiError.status : ApiError → Nat := fun _ => 404

/-- pydantic ConfigResponse. -/
structure ConfigResponse where
  project : String
  key : String
  value : RespValue
deriving DecidableEq

/-- pydantic BatchUpdateResponse. -/
structure BatchUpdateResponse where
  project : String
  message : String
  updated_items : Nat
deriving DecidableEq

/-- pydantic BatchDeleteResponse. -/
structure BatchDeleteResponse where
  project : String
  message : String
  deleted_items : Nat
deriving DecidableEq

/-- Reading the persisted file into the projects dict; the file content is
the state threaded through every handler. -/
def load_projects (file : Store) : Store := file

/-- Writing the projects dict back to the persisted file. -/
def save_projects (projects : Store) : Store := projects

/-- Loop of the batch delete handler: for each requested key, remove it from
the config dict and bump the counter when it is present. -/
def batchRemoveGo : Project → List String → Project × Nat
  | c, [] => (c, 0)
  | c, k :: ks =>
    if k ∈ keys c then
      ((batchRemoveGo (alErase c k) ks).1, (batchRemoveGo (alErase c k) ks).2 + 1)
    else batchRemoveGo c ks

/-- POST /config/get. -/
def get_config (file : Store) (project key : String) :
    Except ApiError (Store × ConfigResponse) :=
  match alLookup (load_projects file) project with
  | none => .error (.projectNotFound project)
  | some cur =>
    if key ∈ keys cur then .ok (file, ⟨project, key, locValue cur key⟩)
    else .error (.keyNotFound key)

/-- POST /config/set. -/
def set_config (file : Store) (project key value : String) :
    Except ApiError (Store × ConfigResponse) :=
  match alLookup (load_projects file) project with
  | none => .error (.projectNotFound project)
  | some cur =>
    if cur = [] then .error (.emptyProjectSingle key)
    else
      .ok (save_projects
          (alInsert (load_projects file) project (alInsert (toConfig cur) key value)),
        ⟨project, key, RespValue.str value⟩)

/-- DELETE /config/delete. -/
def delete_config (file : Store) (project key : String) :
    Except ApiError (Store × ConfigResponse) :=
  match alLookup (load_projects file) project with
  | none => .error (.projectNotFound project)
  | some cur =>
    if cur = [] then .error (.emptyProjectSingle key)
    else
      .ok (save_projects
          (alInsert (load_projects file) project (alErase (toConfig cur) key)),
        ⟨project, key,
          match alLookup (toConfig cur) key with
          | some v => RespValue.str v
          | none => RespValue.null⟩)

/-- POST /config/batch. -/
def batch_set_config (file : Store) (project : String) (updates : List (String × String)) :
    Except ApiError (Store × BatchUpdateResponse) :=
  match alLookup (load_projects file) project with
  | none => .error (.projectNotFound project)
  | some cur =>
    if cur = [] then .error .emptyProjectBatch
    else
      .ok (save_projects
          (alInsert (load_projects file) project (dictOf (toConfig cur) updates)),
        ⟨project, "批量更新成功，共更新 " ++ toString updates.length ++ " 个配置项",
          updates.length⟩)

/-- DELETE /config/batch. -/
def batch_remove_config (file : Store) (project : String) (ks : List String) :
    Except ApiError (Store × BatchDeleteResponse) :=
  match alLookup (load_projects file) project with
  | none => .error (.projectNotFound project)
  | some cur =>
    if cur = [] then .error .emptyProjectBatch
    else
      .ok (save_projects
          (alInsert (load_projects file) project (batchRemoveGo (toConfig cur) ks).1),
        ⟨project,
          "批量删除成功，共删除 " ++ toString (batchRemoveGo (toConfig cur) ks).2 ++ " 个配置项",
          (batchRemoveGo (toConfig cur) ks).2⟩)

/-- Batch add button: reject when any imported key already exists in the
current project (the error payload lists the clashes), otherwise
concatenate the imported rows onto the existing DataFrame. -/
def uiBatchAdd (cur batch : Project) : Except (List String) Project :=
  if (keys batch).filter (fun k => k ∈ keys cur) = [] then .ok (cur ++ batch)
  else .error ((keys batch).filter (fun k => k ∈ keys cur))

/-- Batch delete button: keep only the rows whose key does not appear in the
uploaded file. -/
def uiBatchRemove (cur batch : Project) : Project :=
  cur.filter (fun e => e.1 ∉ keys batch)

/-- One user-level mutation of the current project: the single-item form
handlers, the API endpoints, and the file-based batch operations. -/
inductive UiOp where
  | add : String → String → UiOp
  | edit : String → String → UiOp
  | del : String → UiOp
  | apiSet : String → String → UiOp
  | apiDelete : String → UiOp
  | apiBatchSet : List (String × String) → UiOp
  | apiBatchDelete : List String → UiOp
  | fileBatchAdd : Project → UiOp
  | fileBatchRemove : Project → UiOp
deriving DecidableEq

/-- Effect of one operation on the persisted store, targeting project `P`.
Operations act only when the project exists (the UI handlers run only with a
selected current project; the API handlers 404); every rejected operation
leaves the store as it was. -/
def applyStoreOp (s : Store) (P : String) (op : UiOp) : Store :=
  match alLookup s P with
  | none => s
  | some cur =>
    match op with
    | .add k v =>
      if k = "" ∨ v = "" then s
      else if k ∈ keys cur then s
      else alInsert s P (cur ++ [(k, v)])
    | .edit k v => alInsert s P (cur.map (fun e => if e.1 = k then (e.1, v) else e))
    | .del k => alInsert s P (alErase cur k)
    | .apiSet k v =>
      match set_config s P k v with
      | .ok r => r.1
      | .error _ => s
    | .apiDelete k =>
      match delete_config s P k with
      | .ok r => r.1
      | .error _ => s
    | .apiBatchSet us =>
      match batch_set_config s P us with
      | .ok r => r.1
      | .error _ => s
    | .apiBatchDelete ks =>
      match batch_remove_config s P ks with
      | .ok r => r.1
      | .error _ => s
    | .fileBatchAdd b =>
      match uiBatchAdd cur b with
      | .ok q => alInsert s P q
      | .error _ => s
    | .fileBatchRemove b => alInsert s P (uiBatchRemove cur b)

/-- A sequence of operations, each aimed at a named project. -/
def applyStoreOps (s : Store) (ops : List (String × UiOp)) : Store :=
  ops.foldl (fun acc po => applyStoreOp acc po.1 po.2) s

/-- Per-project key-uniqueness invariant over the whole store. -/
def StoreInv (s : Store) : Prop := ∀ e ∈ s, (keys e.2).Nodup

/-- Safety condition that repairs claim C1: a file-based batch add must not
itself contain duplicate keys (JSON and YAML uploads cannot, CSV can). -/
def opSafe : UiOp → Prop
  | .fileBatchAdd b => (keys b).Nodup
  | _ => True

theorem batchRemoveGo_fst_cons_pos (c : Project) (k₁ : String) (ks : List String)
    (hm : k₁ ∈ keys c) :
    (batchRemoveGo c (k₁ :: ks)).1 = (batchRemoveGo (alErase c k₁) ks).1 := by
  rw [batchRemoveGo, if_pos hm]

theorem batchRemoveGo_snd_cons_pos (c : Project) (k₁ : String) (ks : List String)
    (hm : k₁ ∈ keys c) :
    (batchRemoveGo c (k₁ :: ks)).2 = (batchRemoveGo (alErase c k₁) ks).2 + 1 := by
  rw [batchRemoveGo, if_pos hm]

theorem batchRemoveGo_fst_cons_neg (c : Project) (k₁ : String) (ks : List String)
    (hm : k₁ ∉ keys c) :
    (batchRemoveGo c (k₁ :: ks)).1 = (batchRemoveGo c ks).1 := by
  rw [batchRemoveGo, if_neg hm]

theorem batchRemoveGo_snd_cons_neg (c : Project) (k₁ : String) (ks : List String)
    (hm : k₁ ∉ keys c) :
    (batchRemoveGo c (k₁ :: ks)).2 = (batchRemoveGo c ks).2 := by
  rw [batchRemoveGo, if_neg hm]

theorem mem_keys_batchRemoveGo (ks : List String) : ∀ (c : Project) (k : String),
    k ∈ keys (batchRemoveGo c ks).1 ↔ k ∈ keys c ∧ k ∉ ks := by
  induction ks with
  | nil => intro c k; simp [batchRemoveGo]
  | cons k₁ ks ih =>
    intro c k
    by_cases hm : k₁ ∈ keys c
    · rw [batchRemoveGo_fst_cons_pos c k₁ ks hm, ih, mem_keys_alErase, List.mem_cons]
      constructor
      · rintro ⟨⟨h1, h2⟩, h3⟩
        exact ⟨h1, fun hor => hor.elim h2 h3⟩
      · rintro ⟨h1, h2⟩
        exact ⟨⟨h1, fun he => h2 (Or.inl he)⟩, fun hmem => h2 (Or.inr hmem)⟩
    · rw [batchRemoveGo_fst_cons_neg c k₁ ks hm, ih, List.mem_cons]
      constructor
      · rintro ⟨h1, h2⟩
        refine ⟨h1, fun hor => ?_⟩
        cases hor with
        | inl he => exact hm (he ▸ h1)
        | inr hmem => exact h2 hmem
      · rintro ⟨h1, h2⟩
        exact ⟨h1, fun hmem => h2 (Or.inr hmem)⟩

theorem nodup_keys_batchRemoveGo (ks : List String) : ∀ c : Project,
    (keys c).Nodup → (keys (batchRemoveGo c ks).1).Nodup := by
  induction ks with
  | nil => intro c h; simpa [batchRemoveGo] using h
  | cons k₁ ks ih =>
    intro c h
    by_cases hm : k₁ ∈ keys c
    · rw [batchRemoveGo_fst_cons_pos c k₁ ks hm]
      exact ih _ (nodup_keys_alErase c k₁ h)
    · rw [batchRemoveGo_fst_cons_neg c k₁ ks hm]
      exact ih _ h

theorem snd_batchRemoveGo (ks : List String) : ∀ c : Project, ks.Nodup →
    (batchRemoveGo c ks).2 = (ks.filter (fun k => k ∈ keys c)).length := by
  induction ks with
  | nil => intro c _; simp [batchRemoveGo]
  | cons k₁ ks ih =>
    intro c hnd
    rw [List.nodup_cons] at hnd
    by_cases hm : k₁ ∈ keys c
    · rw [batchRemoveGo_snd_cons_pos c k₁ ks hm, ih _ hnd.2]
      have hfc : (k₁ :: ks).filter (fun k => decide (k ∈ keys c)) =
          k₁ :: ks.filter (fun k => decide (k ∈ keys c)) := by
        simp [List.filter_cons, hm]
      rw [hfc, List.length_cons]
      have hcg : ks.filter (fun k => decide (k ∈ keys (alErase c k₁))) =
          ks.filter (fun k => decide (k ∈ keys c)) := by
        apply List.filter_congr
        intro a ha
        have hne : a ≠ k₁ := fun he => hnd.1 (he ▸ ha)
        rw [decide_eq_decide, mem_keys_alErase]
        exact ⟨fun h => h.1, fun h => ⟨h, hne⟩⟩
      rw [hcg]
    · rw [batchRemoveGo_snd_cons_neg c k₁ ks hm, ih _ hnd.2]
      have hfc : (k₁ :: ks).filter (fun k => decide (k ∈ keys c)) =
          ks.filter (fun k => decide (k ∈ keys c)) := by
        simp [List.filter_cons, hm]
      rw [hfc]

theorem alLookup_batchRemoveGo_of_not_mem (ks : List String) : ∀ (c : Project) (k : String),
    k ∉ ks → alLookup (batchRemoveGo c ks).1 k = alLookup c k := by
  induction ks with
  | nil => intro c k _; simp [batchRemoveGo]
  | cons k₁ ks ih =>
    intro c k hk
    rw [List.mem_cons] at hk
    push_neg at hk
    by_cases hm : k₁ ∈ keys c
    · rw [batchRemoveGo_fst_cons_pos c k₁ ks hm, ih _ _ hk.2,
        alLookup_alErase_ne c k₁ k hk.1]
    · rw [batchRemoveGo_fst_cons_neg c k₁ ks hm, ih _ _ hk.2]

theorem storeInv_alInsert (s : Store) (P : String) (q : Project)
    (hs : StoreInv s) (hq : (keys q).Nodup) : StoreInv (alInsert s P q) := by
  intro e he
  unfold alInsert at he
  by_cases hm : P ∈ keys s
  · rw [if_pos hm] at he
    obtain ⟨a, ha, rfl⟩ := List.mem_map.mp he
    by_cases hP : a.1 = P
    · rw [if_pos hP]
      exact hq
    · rw [if_neg hP]
      exact hs a ha
  · rw [if_neg hm] at he
    rcases List.mem_append.mp he with h | h
    · exact hs e h
    · rw [List.mem_singleton] at h
      subst h
      exact hq

/-- JSON values occurring in the persisted file projects_data.json. -/
inductive Json where
  | str : String → Json
  | arr : List Json → Json
  | obj : List (String × Json) → Json

/-- One record of `to_dict(orient=records)`: an object with members `key`
and `value`, in column order. -/
def encodeEntry (e : Entry) : Json :=
  Json.obj [("key", Json.str e.1), ("value", Json.str e.2)]

/-- Serialization of one project: the ordered list of its records. -/
def encodeProject (p : Project) : Json := Json.arr (p.map encodeEntry)

/-- json.dump of the whole store: one object mapping each project name to
its record list. -/
def encodeStore (s : Store) : Json :=
  Json.obj (s.map (fun q => (q.1, encodeProject q.2)))

/-- Decoding loop over a list, failing when any element fails. -/
def optMap {α β : Type} (f : α → Option β) : List α → Option (List β)
  | [] => some []
  | a :: as =>
    match f a, optMap f as with
    | some b, some bs => some (b :: bs)
    | _, _ => none

/-- Reading back one record. -/
def decodeEntry : Json → Option Entry
  | Json.obj (("key", Json.str k) :: ("value", Json.str v) :: []) => some (k, v)
  | _ => none

/-- Reading back one project, as `pd.DataFrame(v)` does on a record list. -/
def decodeProject : Json → Option Project
  | Json.arr es => optMap decodeEntry es
  | _ => none

/-- json.load of the persisted file back into a store. -/
def decodeStore : Json → Option Store
  | Json.obj ms => optMap (fun m => (decodeProject m.2).map (fun p => (m.1, p))) ms
  | _ => none

theorem decodeEntry_encodeEntry (e : Entry) : decodeEntry (encodeEntry e) = some e := rfl

theorem decodeProject_encodeProject (p : Project) :
    decodeProject (encodeProject p) = some p := by
  induction p with
  | nil => rfl
  | cons e p ih =>
    have ih' : optMap decodeEntry (p.map encodeEntry) = some p := ih
    show optMap decodeEntry ((e :: p).map encodeEntry) = some (e :: p)
    rw [List.map_cons, optMap, ih', decodeEntry_encodeEntry]

theorem decodeStore_encodeStore (s : Store) : decodeStore (encodeStore s) = some s := by
  induction s with
  | nil => rfl
  | cons pr s ih =>
    have ih' : optMap (fun m => (decodeProject m.2).map (fun p => (m.1, p)))
        (s.map (fun q => (q.1, encodeProject q.2))) = some s := ih
    show optMap (fun m => (decodeProject m.2).map (fun p => (m.1, p)))
        ((pr :: s).map (fun q => (q.1, encodeProject q.2))) = some (pr :: s)
    rw [List.map_cons, optMap, ih']
    simp [decodeProject_encodeProject]

/-- C8: saving the Store to the persisted file and loading it back
reproduces an identical set of projects with identical entries: the JSON
document written by save decodes to exactly the same store, and at the
state level the save/load pair is the identity. -/
theorem C8_save_load_roundtrip (s : Store) :
    decodeStore (encodeStore s) = some s ∧ load_projects (save_projects s) = s :=
  ⟨decodeStore_encodeStore s, rfl⟩

/-- C10: get_config performs no write: whenever it succeeds, the store it
returns is exactly the input file state (and on failure no new state is
produced at all); the handler never calls save_projects. -/
theorem C10_get_no_write (file : Store) (P K : String) (s : Store) (r : ConfigResponse)
    (h : get_config file P K = Except.ok (s, r)) : s = file := by
  unfold get_config at h
  cases hl : alLookup (load_projects file) P with
  | none =>
    rw [hl] at h
    exact Except.noConfusion h
  | some cur =>
    rw [hl] at h
    have h2 : (if K ∈ keys cur then
          (Except.ok (file, ⟨P, K, locValue cur K⟩) : Except ApiError (Store × ConfigResponse))
        else Except.error (ApiError.keyNotFound K)) = Except.ok (s, r) := h
    by_cases hk : K ∈ keys cur
    · rw [if_pos hk] at h2
      injection h2 with h'
      injection h' with h1 hr
      exact h1.symm
    · rw [if_neg hk] at h2
      exact Except.noConfusion h2

/-- Witness for C10 at a concrete input. -/
theorem C10_witness : ([("p", [("k", "v")])] : Store) = [("p", [("k", "v")])] :=
  C10_get_no_write [("p", [("k", "v")])] "p" "k" [("p", [("k", "v")])]
    ⟨"p", "k", RespValue.str "v"⟩ (by rfl)

theorem get_config_eq_found (file : Store) (P K : String) (cur : Project)
    (h : alLookup file P = some cur) (hk : K ∈ keys cur) :
    get_config file P K = Except.ok (file, ⟨P, K, locValue cur K⟩) := by
  unfold get_config load_projects
  rw [h]
  show (if K ∈ keys cur then
      (Except.ok (file, ⟨P, K, locValue cur K⟩) : Except ApiError (Store × ConfigResponse))
    else Except.error (ApiError.keyNotFound K)) = _
  rw [if_pos hk]

theorem get_config_eq_absent (file : Store) (P K : String) (cur : Project)
    (h : alLookup file P = some cur) (hk : K ∉ keys cur) :
    get_config file P K = Except.error (ApiError.keyNotFound K) := by
  unfold get_config load_projects
  rw [h]
  show (if K ∈ keys cur then
      (Except.ok (file, ⟨P, K, locValue cur K⟩) : Except ApiError (Store × ConfigResponse))
    else Except.error (ApiError.keyNotFound K)) = _
  rw [if_neg hk]

theorem set_config_eq_empty (file : Store) (P K V : String)
    (h : alLookup file P = some []) :
    set_config file P K V = Except.error (ApiError.emptyProjectSingle K) := by
  unfold set_config load_projects
  rw [h]
  rfl

theorem set_config_eq_ok (file : Store) (P K V : String) (cur : Project)
    (h : alLookup file P = some cur) (hne : cur ≠ []) :
    set_config file P K V =
      Except.ok (alInsert file P (alInsert (toConfig cur) K V),
        ⟨P, K, RespValue.str V⟩) := by
  unfold set_config load_projects save_projects
  rw [h]
  show (if cur = [] then (Except.error (ApiError.emptyProjectSingle K) :
      Except ApiError (Store × ConfigResponse))
    else Except.ok (alInsert file P (alInsert (toConfig cur) K V),
      ⟨P, K, RespValue.str V⟩)) = _
  rw [if_neg hne]

theorem delete_config_eq_empty (file : Store) (P K : String)
    (h : alLookup file P = some []) :
    delete_config file P K = Except.error (ApiError.emptyProjectSingle K) := by
  unfold delete_config load_projects
  rw [h]
  rfl

theorem delete_config_eq_ok (file : Store) (P K : String) (cur : Project)
    (h : alLookup file P = some cur) (hne : cur ≠ []) :
    delete_config file P K =
      Except.ok (alInsert file P (alErase (toConfig cur) K),
        ⟨P, K,
          match alLookup (toConfig cur) K with
          | some v => RespValue.str v
          | none => RespValue.null⟩) := by
  unfold delete_config load_projects save_projects
  rw [h]
  show (if cur = [] then (Except.error (ApiError.emptyProjectSingle K) :
      Except ApiError (Store × ConfigResponse))
    else Except.ok (alInsert file P (alErase (toConfig cur) K),
      ⟨P, K,
        match alLookup (toConfig cur) K with
        | some v => RespValue.str v
        | none => RespValue.null⟩)) = _
  rw [if_neg hne]

theorem batch_set_config_eq_empty (file : Store) (P : String)
    (updates : List (String × String)) (h : alLookup file P = some []) :
    batch_set_config file P updates = Except.error ApiError.emptyProjectBatch := by
  unfold batch_set_config load_projects
  rw [h]
  rfl

theorem batch_set_config_eq_ok (file : Store) (P : String)
    (updates : List (String × String)) (cur : Project)
    (h : alLookup file P = some cur) (hne : cur ≠ []) :
    batch_set_config file P updates =
      Except.ok (alInsert file P (dictOf (toConfig cur) updates),
        ⟨P, "批量更新成功，共更新 " ++ toString updates.length ++ " 个配置项",
          updates.length⟩) := by
  unfold batch_set_config load_projects save_projects
  rw [h]
  show (if cur = [] then (Except.error ApiError.emptyProjectBatch :
      Except ApiError (Store × BatchUpdateResponse))
    else Except.ok (alInsert file P (dictOf (toConfig cur) updates),
      ⟨P, "批量更新成功，共更新 " ++ toString updates.length ++ " 个配置项",
        updates.length⟩)) = _
  rw [if_neg hne]

theorem batch_remove_config_eq_empty (file : Store) (P : String) (ks : List String)
    (h : alLookup file P = some []) :
    batch_remove_config file P ks = Except.error ApiError.emptyProjectBatch := by
  unfold batch_remove_config load_projects
  rw [h]
  rfl

theorem batch_remove_config_eq_ok (file : Store) (P : String) (ks : List String)
    (cur : Project) (h : alLookup file P = some cur) (hne : cur ≠ []) :
    batch_remove_config file P ks =
      Except.ok (alInsert file P (batchRemoveGo (toConfig cur) ks).1,
        ⟨P,
          "批量删除成功，共删除 " ++ toString (batchRemoveGo (toConfig cur) ks).2 ++ " 个配置项",
          (batchRemoveGo (toConfig cur) ks).2⟩) := by
  unfold batch_remove_config load_projects save_projects
  rw [h]
  show (if cur = [] then (Except.error ApiError.emptyProjectBatch :
      Except ApiError (Store × BatchDeleteResponse))
    else Except.ok (alInsert file P (batchRemoveGo (toConfig cur) ks).1,
      ⟨P,
        "批量删除成功，共删除 " ++ toString (batchRemoveGo (toConfig cur) ks).2 ++ " 个配置项",
        (batchRemoveGo (toConfig cur) ks).2⟩)) = _
  rw [if_neg hne]

/-- C2 counterexample: on the store holding one project `p` whose only
entry is the key `k`, the first delete succeeds and removes the entry, and
the second identical delete does not return null but fails with the
empty-project 404 error, refuting the claim that the second call never
errors even when `k` was the only entry. -/
theorem C2_counterexample :
    delete_config [("p", [("k", "v")])] "p" "k" =
      Except.ok ([("p", ([] : Project))], ⟨"p", "k", RespValue.str "v"⟩) ∧
    delete_config [("p", ([] : Project))] "p" "k" =
      Except.error (ApiError.emptyProjectSingle "k") :=
  ⟨rfl, rfl⟩

/-- C2 amended: delete is idempotent provided the project is still
non-empty after the first call: the first delete succeeds, and repeating it
yields null and does not error.  When the deleted key was the only entry,
the second call instead fails with the empty-project 404 error. -/
theorem C2_delete_idempotent_amended (store : Store) (P K : String) (cur : Project)
    (h : alLookup store P = some cur) (hne : cur ≠ [])
    (hne2 : alErase (toConfig cur) K ≠ []) :
    ∃ s₁ r₁ s₂, delete_config store P K = Except.ok (s₁, r₁) ∧
      delete_config s₁ P K = Except.ok (s₂, ⟨P, K, RespValue.null⟩) := by
  refine ⟨alInsert store P (alErase (toConfig cur) K),
    ⟨P, K,
      match alLookup (toConfig cur) K with
      | some v => RespValue.str v
      | none => RespValue.null⟩,
    alInsert (alInsert store P (alErase (toConfig cur) K)) P
      (alErase (toConfig (alErase (toConfig cur) K)) K),
    delete_config_eq_ok store P K cur h hne, ?_⟩
  have h1 : alLookup (alInsert store P (alErase (toConfig cur) K)) P =
      some (alErase (toConfig cur) K) := alLookup_alInsert_self store P _
  rw [delete_config_eq_ok _ P K _ h1 hne2]
  have hnone : alLookup (toConfig (alErase (toConfig cur) K)) K = none := by
    apply alLookup_eq_none
    rw [mem_keys_toConfig, mem_keys_alErase]
    rintro ⟨-, hne'⟩
    exact hne' rfl
  rw [hnone]

/-- Witness for C2 amended at a concrete input. -/
theorem C2_amended_witness :
    ([("a", "1"), ("b", "2")] : Project) ≠ [] ∧
    (∃ s₁ r₁ s₂,
      delete_config [("p", [("a", "1"), ("b", "2")])] "p" "a" = Except.ok (s₁, r₁) ∧
      delete_config s₁ "p" "a" = Except.ok (s₂, ⟨"p", "a", RespValue.null⟩)) :=
  ⟨by decide, C2_delete_idempotent_amended [("p", [("a", "1"), ("b", "2")])] "p" "a"
    [("a", "1"), ("b", "2")] rfl (by decide) (by decide)⟩

/-- C3: on an existing project, set_config fails with the empty-project 404
error and changes nothing when the project has zero entries, and otherwise
succeeds with upsert semantics: the value is replaced in place when the key
exists and a new entry is appended when it is absent. -/
theorem C3_set_empty_guard_and_upsert (store : Store) (P K V : String) (cur : Project)
    (h : alLookup store P = some cur) (hnd : (keys cur).Nodup) :
    (cur = [] →
      set_config store P K V = Except.error (ApiError.emptyProjectSingle K) ∧
      (ApiError.emptyProjectSingle K).status = 404 ∧
      applyStoreOp store P (UiOp.apiSet K V) = store) ∧
    (cur ≠ [] →
      set_config store P K V =
        Except.ok (alInsert store P
            (if K ∈ keys cur then cur.map (fun e => if e.1 = K then (K, V) else e)
             else cur ++ [(K, V)]),
          ⟨P, K, RespValue.str V⟩)) := by
  constructor
  · intro hc
    subst hc
    have herr := set_config_eq_empty store P K V h
    refine ⟨herr, rfl, ?_⟩
    simp only [applyStoreOp, h, herr]
  · intro hne
    rw [set_config_eq_ok store P K V cur h hne, toConfig_eq_self cur hnd]
    rfl

/-- Witness for C3 at a concrete input. -/
theorem C3_witness :
    (([("a", "1")] : Project) = [] →
      set_config [("p", [("a", "1")])] "p" "k" "v" =
        Except.error (ApiError.emptyProjectSingle "k") ∧
      (ApiError.emptyProjectSingle "k").status = 404 ∧
      applyStoreOp [("p", [("a", "1")])] "p" (UiOp.apiSet "k" "v") =
        [("p", [("a", "1")])]) ∧
    (([("a", "1")] : Project) ≠ [] →
      set_config [("p", [("a", "1")])] "p" "k" "v" =
        Except.ok (alInsert [("p", [("a", "1")])] "p"
            (if "k" ∈ keys ([("a", "1")] : Project) then
              ([("a", "1")] : Project).map (fun e => if e.1 = "k" then ("k", "v") else e)
             else ([("a", "1")] : Project) ++ [("k", "v")]),
          ⟨"p", "k", RespValue.str "v"⟩)) :=
  C3_set_empty_guard_and_upsert [("p", [("a", "1")])] "p" "k" "v" [("a", "1")]
    rfl (by decide)

/-- C5: on a non-empty existing project, set_config followed by get_config
on the same key returns exactly the stored scalar value. -/
theorem C5_set_get_roundtrip (store : Store) (P K V : String) (cur : Project)
    (h : alLookup store P = some cur) (hne : cur ≠ []) :
    ∃ s₁ r₁, set_config store P K V = Except.ok (s₁, r₁) ∧
      get_config s₁ P K = Except.ok (s₁, ⟨P, K, RespValue.str V⟩) := by
  refine ⟨alInsert store P (alInsert (toConfig cur) K V), ⟨P, K, RespValue.str V⟩,
    set_config_eq_ok store P K V cur h hne, ?_⟩
  have h1 : alLookup (alInsert store P (alInsert (toConfig cur) K V)) P =
      some (alInsert (toConfig cur) K V) := alLookup_alInsert_self store P _
  have hk : K ∈ keys (alInsert (toConfig cur) K V) :=
    (mem_keys_alInsert _ K K V).mpr (Or.inr rfl)
  rw [get_config_eq_found _ P K _ h1 hk,
    locValue_of_nodup _ K V (nodup_keys_alInsert _ K V (nodup_keys_toConfig cur))
      (alLookup_alInsert_self _ K V)]

/-- Witness for C5 at a concrete input. -/
theorem C5_witness :
    ∃ s₁ r₁, set_config [("p", [("a", "1")])] "p" "k" "v" = Except.ok (s₁, r₁) ∧
      get_config s₁ "p" "k" = Except.ok (s₁, ⟨"p", "k", RespValue.str "v"⟩) :=
  C5_set_get_roundtrip [("p", [("a", "1")])] "p" "k" "v" [("a", "1")] rfl (by decide)

/-- C4: the additive-merge import fails when any imported key already
exists in the project, leaving the store completely unchanged, and when no
imported key exists it appends every imported entry. -/
theorem C4_import_merge (store : Store) (P : String) (cur batch : Project)
    (h : alLookup store P = some cur) :
    ((∃ k ∈ keys batch, k ∈ keys cur) →
      (∃ dups, uiBatchAdd cur batch = Except.error dups ∧ dups ≠ []) ∧
      applyStoreOp store P (UiOp.fileBatchAdd batch) = store) ∧
    ((∀ k ∈ keys batch, k ∉ keys cur) →
      uiBatchAdd cur batch = Except.ok (cur ++ batch) ∧
      applyStoreOp store P (UiOp.fileBatchAdd batch) = alInsert store P (cur ++ batch)) := by
  constructor
  · rintro ⟨k, hk, hk2⟩
    have hmem : k ∈ (keys batch).filter (fun x => x ∈ keys cur) :=
      List.mem_filter.mpr ⟨hk, decide_eq_true hk2⟩
    have hne : (keys batch).filter (fun x => x ∈ keys cur) ≠ [] :=
      List.ne_nil_of_mem hmem
    have herr : uiBatchAdd cur batch =
        Except.error ((keys batch).filter (fun x => x ∈ keys cur)) := by
      unfold uiBatchAdd
      rw [if_neg hne]
    refine ⟨⟨_, herr, hne⟩, ?_⟩
    simp only [applyStoreOp, h, herr]
  · intro hall
    have hnil : (keys batch).filter (fun x => x ∈ keys cur) = [] := by
      rw [List.filter_eq_nil_iff]
      intro a ha
      simp only [decide_eq_true_eq]
      exact hall a ha
    have hok : uiBatchAdd cur batch = Except.ok (cur ++ batch) := by
      unfold uiBatchAdd
      rw [if_pos hnil]
    refine ⟨hok, ?_⟩
    simp only [applyStoreOp, h, hok]

/-- Witness for C4 at a concrete input. -/
theorem C4_witness :
    ((∃ k ∈ keys ([("b", "2")] : Project), k ∈ keys ([("a", "1")] : Project)) →
      (∃ dups, uiBatchAdd [("a", "1")] [("b", "2")] = Except.error dups ∧ dups ≠ []) ∧
      applyStoreOp [("p", [("a", "1")])] "p" (UiOp.fileBatchAdd [("b", "2")]) =
        [("p", [("a", "1")])]) ∧
    ((∀ k ∈ keys ([("b", "2")] : Project), k ∉ keys ([("a", "1")] : Project)) →
      uiBatchAdd [("a", "1")] [("b", "2")] =
        Except.ok ([("a", "1")] ++ [("b", "2")]) ∧
      applyStoreOp [("p", [("a", "1")])] "p" (UiOp.fileBatchAdd [("b", "2")]) =
        alInsert [("p", [("a", "1")])] "p" ([("a", "1")] ++ [("b", "2")])) :=
  C4_import_merge [("p", [("a", "1")])] "p" [("a", "1")] [("b", "2")] rfl

theorem lastLookup_eq_of_mem_nodup (us : Project) (k v : String)
    (hnd : (keys us).Nodup) (hm : (k, v) ∈ us) : lastLookup us k = some v := by
  induction us with
  | nil => exact absurd hm (List.not_mem_nil _)
  | cons e us ih =>
    rw [keys_cons, List.nodup_cons] at hnd
    rw [List.mem_cons] at hm
    cases hm with
    | inl he =>
      subst he
      rw [lastLookup, lastLookup_eq_none us k hnd.1]
      simp
    | inr hm =>
      rw [lastLookup, ih hnd.2 hm]

/-- C6: on a non-empty existing project, batch set returns a count equal to
the number of pairs in the request, and afterwards get returns the new
value for every pair of the mapping. -/
theorem C6_batch_set (store : Store) (P : String) (cur : Project)
    (updates : List (String × String)) (h : alLookup store P = some cur)
    (hne : cur ≠ []) (hnd : (keys updates).Nodup) :
    ∃ s₁ msg, batch_set_config store P updates = Except.ok (s₁, ⟨P, msg, updates.length⟩) ∧
      ∀ kv ∈ updates, get_config s₁ P kv.1 = Except.ok (s₁, ⟨P, kv.1, RespValue.str kv.2⟩) := by
  refine ⟨alInsert store P (dictOf (toConfig cur) updates),
    "批量更新成功，共更新 " ++ toString updates.length ++ " 个配置项",
    batch_set_config_eq_ok store P updates cur h hne, ?_⟩
  intro kv hkv
  have h1 : alLookup (alInsert store P (dictOf (toConfig cur) updates)) P =
      some (dictOf (toConfig cur) updates) := alLookup_alInsert_self store P _
  have hkmem : kv.1 ∈ keys updates := List.mem_map.mpr ⟨kv, hkv, rfl⟩
  have hlk : alLookup (dictOf (toConfig cur) updates) kv.1 = some kv.2 := by
    rw [alLookup_dictOf_of_mem _ _ _ hkmem]
    exact lastLookup_eq_of_mem_nodup updates kv.1 kv.2 hnd hkv
  have hk : kv.1 ∈ keys (dictOf (toConfig cur) updates) := mem_keys_of_alLookup_eq_some hlk
  rw [get_config_eq_found _ P kv.1 _ h1 hk,
    locValue_of_nodup _ kv.1 kv.2 (nodup_keys_dictOf _ updates (nodup_keys_toConfig cur)) hlk]

/-- Witness for C6 at a concrete input. -/
theorem C6_witness :
    ∃ s₁ msg, batch_set_config [("p", [("a", "1")])] "p" [("x", "7"), ("y", "8")] =
        Except.ok (s₁, ⟨"p", msg, ([("x", "7"), ("y", "8")] : List (String × String)).length⟩) ∧
      ∀ kv ∈ ([("x", "7"), ("y", "8")] : List (String × String)),
        get_config s₁ "p" kv.1 = Except.ok (s₁, ⟨"p", kv.1, RespValue.str kv.2⟩) :=
  C6_batch_set [("p", [("a", "1")])] "p" [("a", "1")] [("x", "7"), ("y", "8")] rfl
    (by decide) (by decide)

/-- C7: on a non-empty existing project, batch delete returns a count equal
to the number of requested keys that were present before the call, and
afterwards none of the requested keys are present in the stored project. -/
theorem C7_batch_delete (store : Store) (P : String) (cur : Project) (ks : List String)
    (h : alLookup store P = some cur) (hne : cur ≠ []) (hnd : ks.Nodup) :
    ∃ s₁ q msg,
      batch_remove_config store P ks =
        Except.ok (s₁, ⟨P, msg, (ks.filter (fun k => k ∈ keys cur)).length⟩) ∧
      alLookup s₁ P = some q ∧ ∀ k ∈ ks, k ∉ keys q := by
  have hflt : ks.filter (fun k => decide (k ∈ keys (toConfig cur))) =
      ks.filter (fun k => decide (k ∈ keys cur)) := by
    apply List.filter_congr
    intro a ha
    rw [decide_eq_decide]
    exact mem_keys_toConfig cur a
  have hcnt : (batchRemoveGo (toConfig cur) ks).2 =
      (ks.filter (fun k => k ∈ keys cur)).length := by
    rw [snd_batchRemoveGo ks (toConfig cur) hnd, hflt]
  refine ⟨alInsert store P (batchRemoveGo (toConfig cur) ks).1,
    (batchRemoveGo (toConfig cur) ks).1,
    "批量删除成功，共删除 " ++ toString (ks.filter (fun k => k ∈ keys cur)).length ++ " 个配置项",
    ?_, alLookup_alInsert_self store P _, ?_⟩
  · rw [batch_remove_config_eq_ok store P ks cur h hne, hcnt]
  · intro k hk
    rw [mem_keys_batchRemoveGo]
    rintro ⟨-, hnk⟩
    exact hnk hk

/-- Witness for C7 at a concrete input. -/
theorem C7_witness :
    ∃ s₁ q msg,
      batch_remove_config [("p", [("a", "1"), ("b", "2")])] "p" ["a", "z"] =
        Except.ok (s₁, ⟨"p", msg,
          ((["a", "z"] : List String).filter
            (fun k => k ∈ keys ([("a", "1"), ("b", "2")] : Project))).length⟩) ∧
      alLookup s₁ "p" = some q ∧ ∀ k ∈ (["a", "z"] : List String), k ∉ keys q :=
  C7_batch_delete [("p", [("a", "1"), ("b", "2")])] "p" [("a", "1"), ("b", "2")]
    ["a", "z"] rfl (by decide) (by decide)

/-- C9: on a non-empty project whose stored rows may repeat keys, each of
the four API mutations rebuilds the project through a dict and therefore
collapses duplicates: the stored result has one entry per key, every key
not touched by the mutation keeps the value of its last stored occurrence,
and the requested mutation itself is performed. -/
theorem C9_duplicate_collapse (store : Store) (P : String) (cur : Project)
    (K V : String) (updates : List (String × String)) (ks : List String)
    (h : alLookup store P = some cur) (hne : cur ≠ [])
    (hups : (keys updates).Nodup) :
    (set_config store P K V =
        Except.ok (alInsert store P (alInsert (toConfig cur) K V),
          ⟨P, K, RespValue.str V⟩) ∧
      (keys (alInsert (toConfig cur) K V)).Nodup ∧
      alLookup (alInsert (toConfig cur) K V) K = some V ∧
      ∀ k, k ≠ K → alLookup (alInsert (toConfig cur) K V) k = lastLookup cur k) ∧
    ((∃ r, delete_config store P K =
        Except.ok (alInsert store P (alErase (toConfig cur) K), r)) ∧
      (keys (alErase (toConfig cur) K)).Nodup ∧
      K ∉ keys (alErase (toConfig cur) K) ∧
      ∀ k, k ≠ K → alLookup (alErase (toConfig cur) K) k = lastLookup cur k) ∧
    ((∃ r, batch_set_config store P updates =
        Except.ok (alInsert store P (dictOf (toConfig cur) updates), r)) ∧
      (keys (dictOf (toConfig cur) updates)).Nodup ∧
      (∀ kv ∈ updates, alLookup (dictOf (toConfig cur) updates) kv.1 = some kv.2) ∧
      ∀ k, k ∉ keys updates →
        alLookup (dictOf (toConfig cur) updates) k = lastLookup cur k) ∧
    ((∃ r, batch_remove_config store P ks =
        Except.ok (alInsert store P (batchRemoveGo (toConfig cur) ks).1, r)) ∧
      (keys (batchRemoveGo (toConfig cur) ks).1).Nodup ∧
      (∀ k ∈ ks, k ∉ keys (batchRemoveGo (toConfig cur) ks).1) ∧
      ∀ k, k ∉ ks →
        alLookup (batchRemoveGo (toConfig cur) ks).1 k = lastLookup cur k) := by
  refine ⟨⟨set_config_eq_ok store P K V cur h hne,
      nodup_keys_alInsert _ K V (nodup_keys_toConfig cur),
      alLookup_alInsert_self _ K V, ?_⟩,
    ⟨⟨_, delete_config_eq_ok store P K cur h hne⟩,
      nodup_keys_alErase _ K (nodup_keys_toConfig cur), ?_, ?_⟩,
    ⟨⟨_, batch_set_config_eq_ok store P updates cur h hne⟩,
      nodup_keys_dictOf _ updates (nodup_keys_toConfig cur), ?_, ?_⟩,
    ⟨⟨_, batch_remove_config_eq_ok store P ks cur h hne⟩,
      nodup_keys_batchRemoveGo ks _ (nodup_keys_toConfig cur), ?_, ?_⟩⟩
  · intro k hk
    rw [alLookup_alInsert_ne _ K k V hk, alLookup_toConfig]
  · rw [mem_keys_alErase]
    rintro ⟨-, hk⟩
    exact hk rfl
  · intro k hk
    rw [alLookup_alErase_ne _ K k hk, alLookup_toConfig]
  · intro kv hkv
    rw [alLookup_dictOf_of_mem _ _ _ (List.mem_map.mpr ⟨kv, hkv, rfl⟩)]
    exact lastLookup_eq_of_mem_nodup updates kv.1 kv.2 hups hkv
  · intro k hk
    rw [alLookup_dictOf_of_not_mem _ _ _ hk, alLookup_toConfig]
  · intro k hk
    rw [mem_keys_batchRemoveGo]
    rintro ⟨-, hnk⟩
    exact hnk hk
  · intro k hk
    rw [alLookup_batchRemoveGo_of_not_mem ks _ k hk, alLookup_toConfig]

/-- Witness for C9 at a concrete input holding a duplicated key. -/
theorem C9_witness :
    set_config [("p", [("a", "1"), ("a", "2"), ("b", "3")])] "p" "a" "9" =
      Except.ok (alInsert [("p", [("a", "1"), ("a", "2"), ("b", "3")])] "p"
          (alInsert (toConfig [("a", "1"), ("a", "2"), ("b", "3")]) "a" "9"),
        ⟨"p", "a", RespValue.str "9"⟩) ∧
    (keys (alInsert (toConfig [("a", "1"), ("a", "2"), ("b", "3")]) "a" "9")).Nodup ∧
    alLookup (alInsert (toConfig [("a", "1"), ("a", "2"), ("b", "3")]) "a" "9") "a" =
      some "9" ∧
    ∀ k, k ≠ "a" →
      alLookup (alInsert (toConfig [("a", "1"), ("a", "2"), ("b", "3")]) "a" "9") k =
        lastLookup [("a", "1"), ("a", "2"), ("b", "3")] k :=
  (C9_duplicate_collapse [("p", [("a", "1"), ("a", "2"), ("b", "3")])] "p"
    [("a", "1"), ("a", "2"), ("b", "3")] "a" "9" [("c", "4")] ["b"] rfl (by decide)
    (by decide)).1

theorem keys_map_edit (cur : Project) (k v : String) :
    keys (cur.map (fun e => if e.1 = k then (e.1, v) else e)) = keys cur := by
  induction cur with
  | nil => rfl
  | cons e p ih =>
    rw [List.map_cons, keys_cons, keys_cons, ih]
    by_cases h : e.1 = k
    · rw [if_pos h]
    · rw [if_neg h]

theorem storeInv_applyStoreOp (s : Store) (P : String) (op : UiOp)
    (hs : StoreInv s) (hop : opSafe op) : StoreInv (applyStoreOp s P op) := by
  cases hl : alLookup s P with
  | none =>
    simp only [applyStoreOp, hl]
    exact hs
  | some cur =>
    have hcur : (keys cur).Nodup := hs (P, cur) (alLookup_mem hl)
    cases op with
    | add k v =>
      simp only [applyStoreOp, hl]
      by_cases h1 : k = "" ∨ v = ""
      · rw [if_pos h1]
        exact hs
      · rw [if_neg h1]
        by_cases h2 : k ∈ keys cur
        · rw [if_pos h2]
          exact hs
        · rw [if_neg h2]
          apply storeInv_alInsert s P _ hs
          rw [keys_append]
          refine List.Nodup.append hcur (List.nodup_singleton k) ?_
          intro a ha hb
          simp only [keys, List.map_cons, List.map_nil, List.mem_singleton] at hb
          subst hb
          exact h2 ha
    | edit k v =>
      simp only [applyStoreOp, hl]
      apply storeInv_alInsert s P _ hs
      rw [keys_map_edit]
      exact hcur
    | del k =>
      simp only [applyStoreOp, hl]
      exact storeInv_alInsert s P _ hs (nodup_keys_alErase cur k hcur)
    | apiSet k v =>
      simp only [applyStoreOp, hl]
      by_cases hc : cur = []
      · subst hc
        simp only [set_config_eq_empty s P k v hl]
        exact hs
      · simp only [set_config_eq_ok s P k v cur hl hc]
        exact storeInv_alInsert s P _ hs
          (nodup_keys_alInsert _ k v (nodup_keys_toConfig cur))
    | apiDelete k =>
      simp only [applyStoreOp, hl]
      by_cases hc : cur = []
      · subst hc
        simp only [delete_config_eq_empty s P k hl]
        exact hs
      · simp only [delete_config_eq_ok s P k cur hl hc]
        exact storeInv_alInsert s P _ hs
          (nodup_keys_alErase _ k (nodup_keys_toConfig cur))
    | apiBatchSet us =>
      simp only [applyStoreOp, hl]
      by_cases hc : cur = []
      · subst hc
        simp only [batch_set_config_eq_empty s P us hl]
        exact hs
      · simp only [batch_set_config_eq_ok s P us cur hl hc]
        exact storeInv_alInsert s P _ hs
          (nodup_keys_dictOf _ us (nodup_keys_toConfig cur))
    | apiBatchDelete dks =>
      simp only [applyStoreOp, hl]
      by_cases hc : cur = []
      · subst hc
        simp only [batch_remove_config_eq_empty s P dks hl]
        exact hs
      · simp only [batch_remove_config_eq_ok s P dks cur hl hc]
        exact storeInv_alInsert s P _ hs
          (nodup_keys_batchRemoveGo dks _ (nodup_keys_toConfig cur))
    | fileBatchAdd b =>
      simp only [applyStoreOp, hl]
      by_cases hdup : (keys b).filter (fun x => x ∈ keys cur) = []
      · have hok : uiBatchAdd cur b = Except.ok (cur ++ b) := by
          unfold uiBatchAdd
          rw [if_pos hdup]
        simp only [hok]
        apply storeInv_alInsert s P _ hs
        rw [keys_append]
        have hb : (keys b).Nodup := hop
        refine List.Nodup.append hcur hb ?_
        intro a ha hb2
        have hmem : a ∈ (keys b).filter (fun x => x ∈ keys cur) :=
          List.mem_filter.mpr ⟨hb2, decide_eq_true ha⟩
        rw [hdup] at hmem
        exact absurd hmem (List.not_mem_nil a)
      · have herr : uiBatchAdd cur b =
            Except.error ((keys b).filter (fun x => x ∈ keys cur)) := by
          unfold uiBatchAdd
          rw [if_neg hdup]
        simp only [herr]
        exact hs
    | fileBatchRemove b =>
      simp only [applyStoreOp, hl]
      apply storeInv_alInsert s P _ hs
      have hsub : List.Sublist (keys (uiBatchRemove cur b)) (keys cur) :=
        List.Sublist.map Prod.fst (List.filter_sublist cur)
      exact hcur.sublist hsub

theorem storeInv_applyStoreOps (ops : List (String × UiOp)) : ∀ s : Store,
    StoreInv s → (∀ x ∈ ops, opSafe x.2) → StoreInv (applyStoreOps s ops) := by
  induction ops with
  | nil => exact fun s hs _ => hs
  | cons po ops ih =>
    intro s hs hops
    exact ih _ (storeInv_applyStoreOp s po.1 po.2 hs (hops po (List.mem_cons_self po ops)))
      (fun x hx => hops x (List.mem_cons_of_mem po hx))

/-- C1 counterexample: starting from a store that satisfies the per-project
key-uniqueness invariant, one file-based batch add whose imported batch
repeats a key (possible with a CSV upload) passes the duplicate check,
which only compares imported keys against existing keys, and leaves the
project with two entries sharing a key. -/
theorem C1_counterexample :
    StoreInv [("p", [("a", "1")])] ∧
    ¬ StoreInv (applyStoreOps [("p", [("a", "1")])]
      [("p", UiOp.fileBatchAdd [("b", "2"), ("b", "3")])]) := by
  constructor
  · intro e he
    rw [List.mem_singleton] at he
    subst he
    decide
  · intro hinv
    have hres : applyStoreOps [("p", [("a", "1")])]
        [("p", UiOp.fileBatchAdd [("b", "2"), ("b", "3")])] =
        [("p", [("a", "1"), ("b", "2"), ("b", "3")])] := by rfl
    rw [hres] at hinv
    have hnd := hinv ("p", [("a", "1"), ("b", "2"), ("b", "3")])
      (List.mem_singleton.mpr rfl)
    exact absurd hnd (by decide)

/-- C1 amended: the per-project key-uniqueness invariant is preserved by
every sequence of single add, edit, single delete, API set, delete,
batch set, batch delete, and file-based batch add and remove, provided
every file-based batch add imports a batch whose keys are pairwise
distinct (always true for JSON and YAML uploads, not enforced for CSV);
no other operation needs a side condition. -/
theorem C1_invariant_preserved (s : Store) (ops : List (String × UiOp))
    (hs : StoreInv s) (hops : ∀ x ∈ ops, opSafe x.2) :
    StoreInv (applyStoreOps s ops) :=
  storeInv_applyStoreOps ops s hs hops

/-- Witness for C1 amended at a concrete input. -/
theorem C1_witness :
    StoreInv (applyStoreOps [("p", [("a", "1")])]
      [("p", UiOp.add "b" "2"), ("p", UiOp.apiSet "a" "9"),
       ("p", UiOp.fileBatchAdd [("c", "3")])]) :=
  C1_invariant_preserved [("p", [("a", "1")])] _
    (by
      intro e he
      rw [List.mem_singleton] at he
      subst he
      decide)
    (by
      intro x hx
      rcases List.mem_cons.mp hx with h | hx
      · subst h
        exact trivial
      rcases List.mem_cons.mp hx with h | hx
      · subst h
        exact trivial
      rcases List.mem_cons.mp hx with h | hx
      · subst h
        show (keys ([("c", "3")] : Project)).Nodup
        decide
      · exact absurd hx (List.not_mem_nil x))

end ConfPlat
